import Mathlib

/-!
A verification model of the `system.env` library (`src/lib.rs`): a cached
accessor for process configuration values, reading the live environment
first and falling back to a registry of key-value override files.

The model is a shallow embedding of the unix build of the crate.  Raw
platform-native strings (`OsString`) are byte lists (`List Nat`), the
process-wide `PATHS` registry and `ENV_CACHE` hash map are carried as an
explicit state record, the live environment and the filesystem are
parameters, and every failure mode of the filesystem (unopenable file,
mid-file I/O error) is represented so that the error-degradation behavior
of the lookups can be stated.  The windows-only decoding helper
`windows_path` is modelled separately together with the per-file loop it
sits in.
-/

namespace SystemEnv

/-- Raw platform-native string bytes (the contents of an `OsString`). -/
abbrev ByteStr := List Nat

/-- A filesystem path (`PathBuf`), compared by exact equality. -/
abbrev FsPath := List Nat

/-- One item yielded by the line iterator `BufReader::split(b'\n')` in
`get_os`: either the bytes of one line, or an I/O error at that point. -/
inductive LineRead where
  | ok (data : ByteStr)
  | ioError
deriving DecidableEq

/-- The live process environment, as queried by `std::env::var_os`. -/
abbrev Env := ByteStr → Option ByteStr

/-- The filesystem: `none` models `File::open` failing for that path,
otherwise the sequence of line reads the split iterator produces. -/
abbrev FileSystem := FsPath → Option (List LineRead)

/-- The lookup cache `ENV_CACHE : HashMap<OsString, Option<OsString>>`,
modelled as an association list looked up front-to-back. -/
abbrev Cache := List (ByteStr × Option ByteStr)

/-- `HashMap::get`, cloning the stored optional value. -/
def cacheGet : Cache → ByteStr → Option (Option ByteStr)
  | [], _ => none
  | (k, v) :: rest, name => if k = name then some v else cacheGet rest name

/-- Removal of every entry for a key, used to model the replacing
behavior of `HashMap::insert`. -/
def cacheErase : Cache → ByteStr → Cache
  | [], _ => []
  | (k, v) :: rest, name =>
    if k = name then cacheErase rest name else (k, v) :: cacheErase rest name

/-- `HashMap::insert`: stores the value for the key, replacing any
existing entry for it. -/
def cacheInsert (c : Cache) (k : ByteStr) (v : Option ByteStr) : Cache :=
  (k, v) :: cacheErase c k

/-- The process-wide mutable state: the override path registry `PATHS`
and the lookup cache `ENV_CACHE`. -/
structure EnvState where
  paths : List FsPath
  cache : Cache
deriving DecidableEq

/-- `insert_key_value` from `lib.rs`: a key whose value is the empty
string is stored as explicit absence (`None`), otherwise as `Some`. -/
def insert_key_value (cache : Cache) (key value : ByteStr) : Cache :=
  if value.isEmpty then cacheInsert cache key none
  else cacheInsert cache key (some value)

/-- `add_override_path`.  The result is `none` when the function panics
because the path does not point to a file; the panic fires before any
mutation, so no state is returned in that case.  Otherwise: a linear scan
of the registry, no effect when the path is already present, and on a
genuine insertion the path is appended and the cache cleared. -/
def add_override_path (isFile : FsPath → Bool) (path : FsPath) (st : EnvState) :
    Option EnvState :=
  if !isFile path then none
  else if path ∈ st.paths then some st
  else some { paths := st.paths ++ [path], cache := [] }

/-- Position of the first separator byte 61 = b'=' in a line
(`data.iter().position(|v| *v == b'=')`). -/
def sepPos (data : ByteStr) : Option Nat :=
  data.findIdx? (fun b => b == 61)

/-- Split a line at the first `=` into the key and value halves; `none`
for a line with no separator (the line is skipped). -/
def parseLine (data : ByteStr) : Option (ByteStr × ByteStr) :=
  match sepPos data with
  | none => none
  | some pos => some (data.take pos, data.drop (pos + 1))

/-- The per-file loop of `get_os` (unix build): each line is split at the
first `=`, the pair is inserted into the cache via `insert_key_value`, and
the loop returns as soon as the requested name appears in the cache.  An
I/O error aborts the rest of the file; a line with no separator is
skipped.  The first component is `some val` when the loop returned. -/
def processLines (name : ByteStr) (cache : Cache) :
    List LineRead → Option (Option ByteStr) × Cache
  | [] => (none, cache)
  | .ioError :: _ => (none, cache)
  | .ok data :: rest =>
    match parseLine data with
    | none => processLines name cache rest
    | some (key, value) =>
      let cache2 := insert_key_value cache key value
      match cacheGet cache2 name with
      | some val => (some val, cache2)
      | none => processLines name cache2 rest

/-- The registry loop of `get_os`: the override files are tried in
insertion order, a file that cannot be opened is skipped, and the loop
stops as soon as one file yields a value for the name. -/
def processFiles (fs : FileSystem) (name : ByteStr) (cache : Cache) :
    List FsPath → Option (Option ByteStr) × Cache
  | [] => (none, cache)
  | p :: rest =>
    match fs p with
    | none => processFiles fs name cache rest
    | some lines =>
      match processLines name cache lines with
      | (some val, cache2) => (some val, cache2)
      | (none, cache2) => processFiles fs name cache2 rest

/-- `get_os`: pull from the cache; on a miss consult the environment and
cache a hit; on a miss scan the override files; if everything failed,
cache explicit absence and return absence.  Returns the result together
with the updated state. -/
def get_os (env : Env) (fs : FileSystem) (st : EnvState) (name : ByteStr) :
    Option ByteStr × EnvState :=
  match cacheGet st.cache name with
  | some val => (val, st)
  | none =>
    let cache1 :=
      match env name with
      | some val => cacheInsert st.cache name (some val)
      | none => st.cache
    match cacheGet cache1 name with
    | some val => (val, { st with cache := cache1 })
    | none =>
      match processFiles fs name cache1 st.paths with
      | (some val, cache2) => (val, { st with cache := cache2 })
      | (none, cache2) => (none, { st with cache := cacheInsert cache2 name none })

/-- Strict UTF-8 decoding of a byte sequence into characters, as
performed by `OsString::into_string` on unix: rejects stray continuation
bytes, overlong encodings, surrogate code points and values above
U+10FFFF. -/
def utf8Decode : List Nat → Option (List Char)
  | [] => some []
  | b0 :: rest =>
    if b0 ≤ 0x7F then
      (utf8Decode rest).map (fun cs => Char.ofNat b0 :: cs)
    else if 0xC2 ≤ b0 ∧ b0 ≤ 0xDF then
      match rest with
      | [] => none
      | b1 :: rest2 =>
        if 0x80 ≤ b1 ∧ b1 ≤ 0xBF then
          (utf8Decode rest2).map
            (fun cs => Char.ofNat ((b0 - 0xC0) * 0x40 + (b1 - 0x80)) :: cs)
        else none
    else if 0xE0 ≤ b0 ∧ b0 ≤ 0xEF then
      match rest with
      | b1 :: b2 :: rest3 =>
        if ((if b0 = 0xE0 then 0xA0 else 0x80) ≤ b1 ∧
              b1 ≤ (if b0 = 0xED then 0x9F else 0xBF)) ∧
            (0x80 ≤ b2 ∧ b2 ≤ 0xBF) then
          (utf8Decode rest3).map
            (fun cs =>
              Char.ofNat ((b0 - 0xE0) * 0x1000 + (b1 - 0x80) * 0x40 + (b2 - 0x80)) :: cs)
        else none
      | _ => none
    else if 0xF0 ≤ b0 ∧ b0 ≤ 0xF4 then
      match rest with
      | b1 :: b2 :: b3 :: rest4 =>
        if ((if b0 = 0xF0 then 0x90 else 0x80) ≤ b1 ∧
              b1 ≤ (if b0 = 0xF4 then 0x8F else 0xBF)) ∧
            (0x80 ≤ b2 ∧ b2 ≤ 0xBF) ∧ (0x80 ≤ b3 ∧ b3 ≤ 0xBF) then
          (utf8Decode rest4).map
            (fun cs =>
              Char.ofNat
                ((b0 - 0xF0) * 0x40000 + (b1 - 0x80) * 0x1000 +
                  (b2 - 0x80) * 0x40 + (b3 - 0x80)) :: cs)
        else none
      | _ => none
    else none

/-- `OsString::into_string().ok()`: the value as text when the bytes are
valid UTF-8, `none` otherwise. -/
def into_string (b : ByteStr) : Option String :=
  (utf8Decode b).map fun cs => String.mk cs

/-- `get`: `get_os` followed by the UTF-8 conversion, collapsing an
undecodable value to `none`. -/
def get (env : Env) (fs : FileSystem) (st : EnvState) (name : ByteStr) :
    Option String × EnvState :=
  let r := get_os env fs st name
  (r.1.bind into_string, r.2)

/-- The match arms of `get_bool` over the decoded text. -/
def parseBool (s : String) : Option Bool :=
  if s = "off" ∨ s = "OFF" ∨ s = "FALSE" ∨ s = "false" ∨ s = "0" then some false
  else if s = "on" ∨ s = "ON" ∨ s = "TRUE" ∨ s = "true" ∨ s = "1" then some true
  else none

/-- `get_bool`: `get` followed by the recognized-token match; absence
propagates through the `?` operator as `none`. -/
def get_bool (env : Env) (fs : FileSystem) (st : EnvState) (name : ByteStr) :
    Option Bool × EnvState :=
  let r := get env fs st name
  (r.1.bind parseBool, r.2)

/-- The windows-only `windows_path` helper: both halves of the line must
decode as UTF-8, otherwise nothing is inserted and the caller skips the
line.  On success the pair is inserted through `insert_key_value`. -/
def windows_path (cache : Cache) (data : ByteStr) (pos : Nat) : Option Cache :=
  match utf8Decode (data.take pos) with
  | none => none
  | some _ =>
    match utf8Decode (data.drop (pos + 1)) with
    | none => none
    | some _ => some (insert_key_value cache (data.take pos) (data.drop (pos + 1)))

/-- The per-file loop of `get_os` as compiled on windows: identical to
`processLines` except that a line either half of which fails UTF-8
decoding is skipped via `windows_path`. -/
def processLinesWindows (name : ByteStr) (cache : Cache) :
    List LineRead → Option (Option ByteStr) × Cache
  | [] => (none, cache)
  | .ioError :: _ => (none, cache)
  | .ok data :: rest =>
    match sepPos data with
    | none => processLinesWindows name cache rest
    | some pos =>
      match windows_path cache data pos with
      | none => processLinesWindows name cache rest
      | some cache2 =>
        match cacheGet cache2 name with
        | some val => (some val, cache2)
        | none => processLinesWindows name cache2 rest

/-! ## Specification-side definitions

The following definitions transcribe the resolution order in the words of
the specification (cache, then live environment, then the override files
in registry insertion order with the first matching parsed line winning);
they are compared with `get_os` in the refinement theorems. -/

/-- The lines of a file that the split iterator delivers before any I/O
error: an error aborts the remainder of the file. -/
def okLines : List LineRead → List ByteStr
  | [] => []
  | .ioError :: _ => []
  | .ok data :: rest => data :: okLines rest

/-- The key-value pairs parsed from one override file, in line order:
error-free lines only, lines without a separator skipped. -/
def fileEntries (lines : List LineRead) : List (ByteStr × ByteStr) :=
  (okLines lines).filterMap parseLine

/-- All parsed entries of the registry, files in insertion order, an
unopenable file contributing nothing. -/
def registryEntries (fs : FileSystem) : List FsPath → List (ByteStr × ByteStr)
  | [] => []
  | p :: rest =>
    (match fs p with
     | none => []
     | some lines => fileEntries lines) ++ registryEntries fs rest

/-- The raw value of the first entry whose key equals the name. -/
def findEntry : List (ByteStr × ByteStr) → ByteStr → Option ByteStr
  | [], _ => none
  | (k, v) :: rest, name => if k = name then some v else findEntry rest name

/-- The value `insert_key_value` stores for a raw value: the empty string
becomes explicit absence. -/
def emptyToNone (v : ByteStr) : Option ByteStr :=
  if v.isEmpty then none else some v

/-- The resolution order in the specification's words: a cached value
(possibly explicit absence) is returned as is; otherwise an environment
hit is returned; otherwise the first override-file line whose key equals
the name decides, its value read through the empty-means-absent policy;
otherwise absence. -/
def specResolve (env : Env) (fs : FileSystem) (st : EnvState) (name : ByteStr) :
    Option ByteStr :=
  match cacheGet st.cache name with
  | some val => val
  | none =>
    match env name with
    | some val => some val
    | none =>
      match findEntry (registryEntries fs st.paths) name with
      | some v => emptyToNone v
      | none => none

/-! ## Operation sequences -/

/-- One public mutating or reading operation on the process-wide state. -/
inductive Op where
  | add (p : FsPath)
  | lookup (name : ByteStr)

/-- Run one operation.  An `add` that would panic leaves the state
untouched, which is exactly what the code does: the panic fires before
either global is locked or mutated. -/
def runOp (isFile : FsPath → Bool) (env : Env) (fs : FileSystem) (st : EnvState) :
    Op → EnvState
  | .add p => (add_override_path isFile p st).getD st
  | .lookup name => (get_os env fs st name).2

/-- Run a sequence of operations left to right. -/
def run (isFile : FsPath → Bool) (env : Env) (fs : FileSystem) (st : EnvState) :
    List Op → EnvState
  | [] => st
  | op :: rest => run isFile env fs (runOp isFile env fs st op) rest

/-- The cache holds at most one entry per key. -/
def CacheWF (c : Cache) : Prop :=
  (c.map Prod.fst).Nodup

instance (c : Cache) : Decidable (CacheWF c) := by
  unfold CacheWF; infer_instance

/-! ## Concrete instances

Small closed environments, filesystems and states, used to exhibit
counterexamples and to instantiate the conditional theorems.  Names are
single bytes: 65 is `A`, 88 is `X`; the file at path 80 holds the single
line `A=F` (bytes 65 61 70). -/

/-- An environment where the name 65 has the value 69. -/
def env0 : Env := fun n => if n = [65] then some [69] else none

/-- A filesystem with one file at path 80 holding the line `A=F`. -/
def fs0 : FileSystem := fun p => if p = [80] then some [.ok [65, 61, 70]] else none

/-- The state after the file at 80 has been registered, cache empty. -/
def st1 : EnvState := { paths := [[80]], cache := [] }

/-- The state after looking up the unrelated name 88 in `st1`: the scan
has read-ahead-cached the override-file value for 65. -/
def st2 : EnvState := (get_os env0 fs0 st1 [88]).2

/-- The empty environment. -/
def envN : Env := fun _ => none

/-- The environment mapping 65 to the bytes of the text `False`. -/
def envF : Env := fun n => if n = [65] then some [70, 97, 108, 115, 101] else none

/-- The environment mapping 65 to the empty string. -/
def envE : Env := fun n => if n = [65] then some [] else none

/-- The filesystem with no openable file. -/
def fsE : FileSystem := fun _ => none

/-- A filesystem whose file at 80 holds the single line `FOO=`
(bytes 70 79 79 61: key `FOO`, empty value). -/
def fs5 : FileSystem := fun p => if p = [80] then some [.ok [70, 79, 79, 61]] else none

/-- The fresh state: no override paths, empty cache. -/
def st0 : EnvState := { paths := [], cache := [] }

/-- A state with cached explicit absence for the name 65. -/
def st6 : EnvState := { paths := [], cache := [([65], none)] }

/-- A file-existence test accepting exactly the path 80. -/
def isFile0 : FsPath → Bool := fun p => p == [80]

end SystemEnv

namespace SystemEnv

/-! ## Cache lemmas -/

theorem cacheGet_cacheErase (c : Cache) (k k2 : ByteStr) :
    cacheGet (cacheErase c k) k2 = if k = k2 then none else cacheGet c k2 := by
  induction c with
  | nil => simp [cacheErase, cacheGet]
  | cons hd rest ih =>
    obtain ⟨k1, v1⟩ := hd
    by_cases h1 : k1 = k
    · subst h1
      by_cases h2 : k1 = k2
      · subst h2; simp [cacheErase, cacheGet, ih]
      · simp [cacheErase, cacheGet, h2, ih]
    · by_cases h2 : k1 = k2
      · subst h2
        have hk : ¬k1 = k := h1
        have hk2 : ¬k = k1 := fun h => hk h.symm
        simp [cacheErase, cacheGet, hk, hk2]
      · simp [cacheErase, cacheGet, h1, h2, ih]

theorem cacheGet_cacheInsert (c : Cache) (k : ByteStr) (v : Option ByteStr)
    (k2 : ByteStr) :
    cacheGet (cacheInsert c k v) k2 = if k = k2 then some v else cacheGet c k2 := by
  by_cases h : k = k2 <;> simp [cacheInsert, cacheGet, h, cacheGet_cacheErase]

theorem insert_key_value_eq (c : Cache) (k v : ByteStr) :
    insert_key_value c k v = cacheInsert c k (emptyToNone v) := by
  by_cases h : v.isEmpty <;> simp [insert_key_value, emptyToNone, h]

theorem cacheGet_insert_key_value (c : Cache) (k v k2 : ByteStr) :
    cacheGet (insert_key_value c k v) k2 =
      if k = k2 then some (emptyToNone v) else cacheGet c k2 := by
  rw [insert_key_value_eq, cacheGet_cacheInsert]

end SystemEnv

namespace SystemEnv

/-! ## The file scan returns the first matching parsed line -/

theorem fileEntries_nil : fileEntries [] = [] := rfl

theorem fileEntries_ioError (rest : List LineRead) :
    fileEntries (.ioError :: rest) = [] := rfl

theorem fileEntries_ok_none (data : ByteStr) (rest : List LineRead)
    (hp : parseLine data = none) :
    fileEntries (.ok data :: rest) = fileEntries rest := by
  simp [fileEntries, okLines, hp]

theorem fileEntries_ok_some (data : ByteStr) (rest : List LineRead)
    (key value : ByteStr) (hp : parseLine data = some (key, value)) :
    fileEntries (.ok data :: rest) = (key, value) :: fileEntries rest := by
  simp [fileEntries, okLines, hp]

theorem processLines_spec (name : ByteStr) (lines : List LineRead) :
    ∀ cache : Cache, cacheGet cache name = none →
      (processLines name cache lines).1 =
        (findEntry (fileEntries lines) name).map emptyToNone ∧
      (findEntry (fileEntries lines) name = none →
        cacheGet (processLines name cache lines).2 name = none) := by
  induction lines with
  | nil =>
    intro cache h
    simp [processLines, fileEntries_nil, findEntry, h]
  | cons hd rest ih =>
    intro cache h
    cases hd with
    | ioError => simp [processLines, fileEntries_ioError, findEntry, h]
    | ok data =>
      cases hp : parseLine data with
      | none =>
        rw [fileEntries_ok_none data rest hp]
        simpa [processLines, hp] using ih cache h
      | some kv =>
        obtain ⟨key, value⟩ := kv
        rw [fileEntries_ok_some data rest key value hp]
        by_cases hk : key = name
        · subst hk
          have hg : cacheGet (insert_key_value cache key value) key =
              some (emptyToNone value) := by
            simp [cacheGet_insert_key_value]
          simp [processLines, hp, hg, findEntry]
        · have hg : cacheGet (insert_key_value cache key value) name = none := by
            simp [cacheGet_insert_key_value, hk, h]
          have hrec := ih (insert_key_value cache key value) hg
          simpa [processLines, hp, hg, findEntry, hk] using hrec

theorem processLines_found (name : ByteStr) (lines : List LineRead) :
    ∀ (cache : Cache) (v : Option ByteStr) (c2 : Cache),
      processLines name cache lines = (some v, c2) → cacheGet c2 name = some v := by
  induction lines with
  | nil => intro cache v c2 h; simp [processLines] at h
  | cons hd rest ih =>
    intro cache v c2 h
    cases hd with
    | ioError => simp [processLines] at h
    | ok data =>
      cases hp : parseLine data with
      | none =>
        rw [processLines, hp] at h
        exact ih cache v c2 h
      | some kv =>
        obtain ⟨key, value⟩ := kv
        rw [processLines, hp] at h
        cases hg : cacheGet (insert_key_value cache key value) name with
        | some val =>
          simp [hg] at h
          obtain ⟨h1, h2⟩ := h
          rw [← h2, hg, h1]
        | none =>
          simp [hg] at h
          exact ih (insert_key_value cache key value) v c2 h

end SystemEnv

namespace SystemEnv

/-! ## The registry scan, file by file -/

theorem registryEntries_append (fs : FileSystem) (a b : List FsPath) :
    registryEntries fs (a ++ b) = registryEntries fs a ++ registryEntries fs b := by
  induction a with
  | nil => simp [registryEntries]
  | cons p rest ih => simp [registryEntries, ih]

theorem findEntry_append_of_none (a b : List (ByteStr × ByteStr)) (name : ByteStr)
    (h : findEntry a name = none) :
    findEntry (a ++ b) name = findEntry b name := by
  induction a with
  | nil => simp
  | cons hd rest ih =>
    obtain ⟨k, v⟩ := hd
    by_cases hk : k = name
    · simp [findEntry, hk] at h
    · simp [findEntry, hk] at h ⊢
      exact ih h

theorem findEntry_append_of_some (a b : List (ByteStr × ByteStr)) (name : ByteStr)
    (v : ByteStr) (h : findEntry a name = some v) :
    findEntry (a ++ b) name = some v := by
  induction a with
  | nil => simp [findEntry] at h
  | cons hd rest ih =>
    obtain ⟨k, w⟩ := hd
    by_cases hk : k = name
    · simp [findEntry, hk] at h ⊢; exact h
    · simp [findEntry, hk] at h ⊢
      exact ih h

theorem processFiles_spec (fs : FileSystem) (name : ByteStr) (paths : List FsPath) :
    ∀ cache : Cache, cacheGet cache name = none →
      (processFiles fs name cache paths).1 =
        (findEntry (registryEntries fs paths) name).map emptyToNone ∧
      (findEntry (registryEntries fs paths) name = none →
        cacheGet (processFiles fs name cache paths).2 name = none) := by
  induction paths with
  | nil =>
    intro cache h
    simp [processFiles, registryEntries, findEntry, h]
  | cons p rest ih =>
    intro cache h
    cases hfp : fs p with
    | none =>
      have hre : registryEntries fs (p :: rest) = registryEntries fs rest := by
        simp [registryEntries, hfp]
      rw [hre]
      simpa [processFiles, hfp] using ih cache h
    | some lines =>
      have hre : registryEntries fs (p :: rest) =
          fileEntries lines ++ registryEntries fs rest := by
        simp [registryEntries, hfp]
      rw [hre]
      have hpl := processLines_spec name lines cache h
      rcases hres : processLines name cache lines with ⟨r1, c1⟩
      rw [hres] at hpl
      cases hfind : findEntry (fileEntries lines) name with
      | some v =>
        have h1 : r1 = some (emptyToNone v) := by
          have := hpl.1
          simpa [hfind] using this
        subst h1
        rw [findEntry_append_of_some _ _ _ _ hfind]
        constructor
        · simp [processFiles, hfp, hres]
        · intro hcontra; simp at hcontra
      | none =>
        have h1 : r1 = none := by
          have := hpl.1
          simpa [hfind] using this
        subst h1
        have h2 : cacheGet c1 name = none := hpl.2 hfind
        rw [findEntry_append_of_none _ _ _ hfind]
        have hrec := ih c1 h2
        constructor
        · calc (processFiles fs name cache (p :: rest)).1
              = (processFiles fs name c1 rest).1 := by
                simp [processFiles, hfp, hres]
          _ = _ := hrec.1
        · intro hnone
          calc cacheGet (processFiles fs name cache (p :: rest)).2 name
              = cacheGet (processFiles fs name c1 rest).2 name := by
                simp [processFiles, hfp, hres]
          _ = none := hrec.2 hnone

theorem processFiles_found (fs : FileSystem) (name : ByteStr) (paths : List FsPath) :
    ∀ (cache : Cache) (v : Option ByteStr) (c2 : Cache),
      processFiles fs name cache paths = (some v, c2) → cacheGet c2 name = some v := by
  induction paths with
  | nil => intro cache v c2 h; simp [processFiles] at h
  | cons p rest ih =>
    intro cache v c2 h
    cases hfp : fs p with
    | none =>
      rw [processFiles, hfp] at h
      exact ih cache v c2 h
    | some lines =>
      rcases hres : processLines name cache lines with ⟨r1, c1⟩
      rw [processFiles, hfp] at h
      simp only [hres] at h
      cases r1 with
      | some val =>
        simp at h
        obtain ⟨h1, h2⟩ := h
        rw [← h2, ← h1]
        exact processLines_found name lines cache val c1 hres
      | none =>
        simp at h
        exact ih c1 v c2 h

end SystemEnv

namespace SystemEnv

/-! ## Characterization of `get_os` -/

theorem get_os_resolve (env : Env) (fs : FileSystem) (st : EnvState) (name : ByteStr) :
    (get_os env fs st name).1 = specResolve env fs st name := by
  unfold get_os specResolve
  cases hc : cacheGet st.cache name with
  | some val => simp
  | none =>
    cases he : env name with
    | some val =>
      have hg : cacheGet (cacheInsert st.cache name (some val)) name = some (some val) := by
        simp [cacheGet_cacheInsert]
      simp [hg]
    | none =>
      have hspec := processFiles_spec fs name st.paths st.cache hc
      rcases hres : processFiles fs name st.cache st.paths with ⟨r1, c1⟩
      rw [hres] at hspec
      cases hfind : findEntry (registryEntries fs st.paths) name with
      | some v =>
        have h1 : r1 = some (emptyToNone v) := by
          have := hspec.1
          simpa [hfind] using this
        subst h1
        simp [hc, hres]
      | none =>
        have h1 : r1 = none := by
          have := hspec.1
          simpa [hfind] using this
        subst h1
        simp [hc, hres]

theorem get_os_cache_self (env : Env) (fs : FileSystem) (st : EnvState)
    (name : ByteStr) :
    cacheGet ((get_os env fs st name).2).cache name = some ((get_os env fs st name).1) := by
  unfold get_os
  cases hc : cacheGet st.cache name with
  | some val => simpa using hc
  | none =>
    cases he : env name with
    | some val =>
      have hg : cacheGet (cacheInsert st.cache name (some val)) name = some (some val) := by
        simp [cacheGet_cacheInsert]
      simp [hg]
    | none =>
      rcases hres : processFiles fs name st.cache st.paths with ⟨r1, c1⟩
      cases r1 with
      | some val =>
        have := processFiles_found fs name st.paths st.cache val c1 hres
        simp [hc, hres, this]
      | none =>
        simp [hc, hres, cacheGet_cacheInsert]

/-- A cache hit returns immediately with the state unchanged. -/
theorem get_os_cache_hit (env : Env) (fs : FileSystem) (st : EnvState)
    (name : ByteStr) (v : Option ByteStr) (h : cacheGet st.cache name = some v) :
    get_os env fs st name = (v, st) := by
  unfold get_os
  simp [h]

end SystemEnv

namespace SystemEnv

/-! ## The cache holds at most one entry per key -/

theorem mem_map_fst_cacheErase (c : Cache) (k a : ByteStr)
    (h : a ∈ (cacheErase c k).map Prod.fst) : a ∈ c.map Prod.fst := by
  induction c with
  | nil => simp [cacheErase] at h
  | cons hd rest ih =>
    obtain ⟨k1, v1⟩ := hd
    by_cases hk : k1 = k
    · rw [cacheErase, if_pos hk] at h
      simp [ih h]
    · rw [cacheErase, if_neg hk] at h
      rcases List.mem_map.mp h with ⟨p, hp, hpa⟩
      rcases List.mem_cons.mp hp with h1 | h1
      · subst h1; simp [← hpa]
      · have : a ∈ (cacheErase rest k).map Prod.fst :=
          List.mem_map.mpr ⟨p, h1, hpa⟩
        simp [ih this]

theorem not_mem_map_fst_cacheErase (c : Cache) (k : ByteStr) :
    k ∉ (cacheErase c k).map Prod.fst := by
  induction c with
  | nil => simp [cacheErase]
  | cons hd rest ih =>
    obtain ⟨k1, v1⟩ := hd
    by_cases hk : k1 = k
    · rw [cacheErase, if_pos hk]; exact ih
    · rw [cacheErase, if_neg hk]
      intro h
      rcases List.mem_map.mp h with ⟨p, hp, hpa⟩
      rcases List.mem_cons.mp hp with h1 | h1
      · exact hk (by rw [h1] at hpa; exact hpa)
      · exact ih (List.mem_map.mpr ⟨p, h1, hpa⟩)

theorem cacheWF_cacheErase (c : Cache) (k : ByteStr) (h : CacheWF c) :
    CacheWF (cacheErase c k) := by
  induction c with
  | nil => simpa [cacheErase] using h
  | cons hd rest ih =>
    obtain ⟨k1, v1⟩ := hd
    rw [CacheWF, List.map_cons, List.nodup_cons] at h
    by_cases hk : k1 = k
    · rw [cacheErase, if_pos hk]; exact ih h.2
    · rw [cacheErase, if_neg hk]
      rw [CacheWF, List.map_cons, List.nodup_cons]
      exact ⟨fun hm => h.1 (mem_map_fst_cacheErase rest k k1 hm), ih h.2⟩

theorem cacheWF_cacheInsert (c : Cache) (k : ByteStr) (v : Option ByteStr)
    (h : CacheWF c) : CacheWF (cacheInsert c k v) := by
  rw [cacheInsert, CacheWF, List.map_cons, List.nodup_cons]
  exact ⟨not_mem_map_fst_cacheErase c k, cacheWF_cacheErase c k h⟩

theorem cacheWF_insert_key_value (c : Cache) (k v : ByteStr) (h : CacheWF c) :
    CacheWF (insert_key_value c k v) := by
  rw [insert_key_value_eq]
  exact cacheWF_cacheInsert c k (emptyToNone v) h

theorem cacheWF_processLines (name : ByteStr) (lines : List LineRead) :
    ∀ cache : Cache, CacheWF cache → CacheWF (processLines name cache lines).2 := by
  induction lines with
  | nil => intro cache h; simpa [processLines] using h
  | cons hd rest ih =>
    intro cache h
    cases hd with
    | ioError => simpa [processLines] using h
    | ok data =>
      cases hp : parseLine data with
      | none =>
        rw [processLines, hp]
        exact ih cache h
      | some kv =>
        obtain ⟨key, value⟩ := kv
        have h2 := cacheWF_insert_key_value cache key value h
        rw [processLines, hp]
        cases hg : cacheGet (insert_key_value cache key value) name with
        | some val => simpa [hg] using h2
        | none => simpa [hg] using ih (insert_key_value cache key value) h2

theorem cacheWF_processFiles (fs : FileSystem) (name : ByteStr) (paths : List FsPath) :
    ∀ cache : Cache, CacheWF cache → CacheWF (processFiles fs name cache paths).2 := by
  induction paths with
  | nil => intro cache h; simpa [processFiles] using h
  | cons p rest ih =>
    intro cache h
    cases hfp : fs p with
    | none =>
      rw [processFiles, hfp]
      exact ih cache h
    | some lines =>
      have h2 := cacheWF_processLines name lines cache h
      rcases hres : processLines name cache lines with ⟨r1, c1⟩
      rw [hres] at h2
      rw [processFiles, hfp]
      simp only [hres]
      cases r1 with
      | some val => simpa using h2
      | none => simpa using ih c1 h2

theorem cacheWF_get_os (env : Env) (fs : FileSystem) (st : EnvState) (name : ByteStr)
    (h : CacheWF st.cache) : CacheWF ((get_os env fs st name).2).cache := by
  unfold get_os
  cases hc : cacheGet st.cache name with
  | some val => simpa using h
  | none =>
    cases he : env name with
    | some val =>
      have hg : cacheGet (cacheInsert st.cache name (some val)) name = some (some val) := by
        simp [cacheGet_cacheInsert]
      simpa [hg] using cacheWF_cacheInsert st.cache name (some val) h
    | none =>
      have h2 := cacheWF_processFiles fs name st.paths st.cache h
      rcases hres : processFiles fs name st.cache st.paths with ⟨r1, c1⟩
      rw [hres] at h2
      cases r1 with
      | some val => simpa [hc, hres] using h2
      | none => simpa [hc, hres] using cacheWF_cacheInsert c1 name none h2

theorem cacheWF_runOp (isFile : FsPath → Bool) (env : Env) (fs : FileSystem)
    (st : EnvState) (op : Op) (h : CacheWF st.cache) :
    CacheWF ((runOp isFile env fs st op).cache) := by
  cases op with
  | add p =>
    rw [runOp, add_override_path]
    by_cases h1 : isFile p
    · by_cases h2 : p ∈ st.paths
      · simpa [h1, h2] using h
      · simp [h1, h2, CacheWF]
    · simpa [h1] using h
  | lookup name => exact cacheWF_get_os env fs st name h

theorem cacheWF_run (isFile : FsPath → Bool) (env : Env) (fs : FileSystem)
    (ops : List Op) : ∀ st : EnvState, CacheWF st.cache →
      CacheWF ((run isFile env fs st ops).cache) := by
  induction ops with
  | nil => intro st h; simpa [run] using h
  | cons op rest ih =>
    intro st h
    rw [run]
    exact ih _ (cacheWF_runOp isFile env fs st op h)

end SystemEnv

namespace SystemEnv

/-! ## Claim theorems -/

/-- C1: for every name, `get_os` resolves in this order: a cached entry
(possibly explicit absence) is returned immediately with the state
untouched; otherwise an environment hit is cached and returned; otherwise
the override files are scanned in registry insertion order and the first
parsed line whose inserted key equals the name decides, short-circuiting
the rest; if no source yields a value, explicit absence is cached for the
name and absence is returned. -/
theorem c1_resolution_order (env : Env) (fs : FileSystem) (st : EnvState)
    (name : ByteStr) :
    (get_os env fs st name).1 = specResolve env fs st name ∧
    (∀ v, cacheGet st.cache name = some v → get_os env fs st name = (v, st)) ∧
    (cacheGet st.cache name = none → env name = none →
      findEntry (registryEntries fs st.paths) name = none →
      (get_os env fs st name).1 = none ∧
      cacheGet ((get_os env fs st name).2).cache name = some none) := by
  refine ⟨get_os_resolve env fs st name, fun v h => get_os_cache_hit env fs st name v h, ?_⟩
  intro h1 h2 h3
  have hr : (get_os env fs st name).1 = none := by
    rw [get_os_resolve]
    simp [specResolve, h1, h2, h3]
  refine ⟨hr, ?_⟩
  have := get_os_cache_self env fs st name
  rwa [hr] at this

theorem c1_resolution_order_witness :
    get_os env0 fs0 st2 [65] = (some [70], st2) ∧
    (get_os env0 fs0 st1 [88]).1 = none ∧
    cacheGet ((get_os env0 fs0 st1 [88]).2).cache [88] = some none :=
  ⟨(c1_resolution_order env0 fs0 st2 [65]).2.1 (some [70]) (by decide),
   (c1_resolution_order env0 fs0 st1 [88]).2.2 (by decide) (by decide) (by decide)⟩

/-- C2 counterexample: the name 65 exists both in the environment (value
69) and in a registered override file (value 70), yet after the unrelated
lookup that produced `st2`, `get_os` returns the override-file value 70,
because the read-ahead scan cached it. -/
theorem c2_counterexample :
    env0 [65] = some [69] ∧
    findEntry (registryEntries fs0 st2.paths) [65] = some [70] ∧
    (get_os env0 fs0 st2 [65]).1 = some [70] ∧
    some ([70] : ByteStr) ≠ some [69] := by
  refine ⟨rfl, by decide, by decide, by decide⟩

/-- C2 (amended): for a name present both in the live environment and in
a registered override file, `get_os` returns the environment's value
provided the cache holds no entry for the name (prior lookups of other
names may have read-ahead-cached the override-file value, which then wins
through the cache). -/
theorem c2_env_precedence (env : Env) (fs : FileSystem) (st : EnvState)
    (name v w : ByteStr) (h1 : cacheGet st.cache name = none)
    (h2 : env name = some v)
    (_h3 : findEntry (registryEntries fs st.paths) name = some w) :
    (get_os env fs st name).1 = some v := by
  rw [get_os_resolve]
  simp [specResolve, h1, h2]

theorem c2_env_precedence_witness :
    (get_os env0 fs0 st1 [65]).1 = some [69] :=
  c2_env_precedence env0 fs0 st1 [65] [69] [70] (by decide) (by decide) (by decide)

/-- C3 counterexample: after the single lookup that produced `st2` (from
an invalidated, empty cache), the cache holds the entry 70 for the key
65, while the full precedence chain (environment first, then the
override files) resolves 65 to the environment value 69. -/
theorem c3_counterexample :
    cacheGet st2.cache [65] = some (some [70]) ∧
    specResolve env0 fs0 { paths := st2.paths, cache := [] } [65] = some [69] ∧
    some (some ([70] : ByteStr)) ≠ some (some [69]) := by
  refine ⟨by decide, by decide, by decide⟩

/-- C3 (amended): after any sequence of `add_override_path` and lookup
operations the cache holds at most one entry per key; and the entry a
lookup leaves for the requested name itself equals the precedence-chain
resolution of that name; but a read-ahead entry cached for a key other
than the requested one may hold the override-file value even when the
environment also defines that key. -/
theorem c3_cache_invariant :
    (∀ (isFile : FsPath → Bool) (env : Env) (fs : FileSystem) (st : EnvState)
        (ops : List Op), CacheWF st.cache →
        CacheWF ((run isFile env fs st ops).cache)) ∧
    (∀ (env : Env) (fs : FileSystem) (st : EnvState) (name : ByteStr),
        cacheGet ((get_os env fs st name).2).cache name =
          some (specResolve env fs st name)) := by
  constructor
  · intro isFile env fs st ops h
    exact cacheWF_run isFile env fs ops st h
  · intro env fs st name
    rw [← get_os_resolve]
    exact get_os_cache_self env fs st name

theorem c3_cache_invariant_witness :
    CacheWF ((run isFile0 env0 fs0 st0 [Op.add [80], Op.lookup [88]]).cache) ∧
    cacheGet ((get_os env0 fs0 st1 [88]).2).cache [88] =
      some (specResolve env0 fs0 st1 [88]) :=
  ⟨c3_cache_invariant.1 isFile0 env0 fs0 st0 [Op.add [80], Op.lookup [88]] (by decide),
   c3_cache_invariant.2 env0 fs0 st1 [88]⟩

end SystemEnv

namespace SystemEnv

/-- C4 counterexample: the environment value `False` (a case variant of
`false`) is decoded by `get` but yields `none` from `get_bool`, not
`some false`: only the all-lowercase and all-uppercase spellings are
recognized. -/
theorem c4_counterexample :
    (get envF fsE st0 [65]).1 = some "False" ∧
    (get_bool envF fsE st0 [65]).1 = none ∧
    (none : Option Bool) ≠ some false := by
  refine ⟨by decide, by decide, by decide⟩

/-- C4 (amended): `get_bool` recognizes exactly the tokens `off`, `OFF`,
`FALSE`, `false`, `0` as `false` and `on`, `ON`, `TRUE`, `true`, `1` as
`true` (only these exact spellings, not arbitrary case variants);
anything else, including absence of the variable, yields `none`. -/
theorem c4_bool_parsing (env : Env) (fs : FileSystem) (st : EnvState)
    (name : ByteStr) :
    (get_bool env fs st name).1 = ((get env fs st name).1).bind parseBool ∧
    (∀ s, parseBool s = some false ↔
      (s = "off" ∨ s = "OFF" ∨ s = "FALSE" ∨ s = "false" ∨ s = "0")) ∧
    (∀ s, parseBool s = some true ↔
      (s = "on" ∨ s = "ON" ∨ s = "TRUE" ∨ s = "true" ∨ s = "1")) ∧
    ((get env fs st name).1 = none → (get_bool env fs st name).1 = none) := by
  refine ⟨rfl, ?_, ?_, ?_⟩
  · intro s
    constructor
    · unfold parseBool
      split_ifs with h1 h2
      · intro _; exact h1
      · intro hco; exact absurd hco (by simp)
      · intro hco; exact absurd hco (by simp)
    · intro h
      rcases h with h | h | h | h | h <;> subst h <;> decide
  · intro s
    constructor
    · unfold parseBool
      split_ifs with h1 h2
      · intro hco; exact absurd hco (by simp)
      · intro _; exact h2
      · intro hco; exact absurd hco (by simp)
    · intro h
      rcases h with h | h | h | h | h <;> subst h <;> decide
  · intro h
    show ((get env fs st name).1).bind parseBool = none
    rw [h]
    rfl

theorem c4_bool_parsing_witness :
    (get_bool envN fsE st0 [65]).1 = none ∧ parseBool "ON" = some true :=
  ⟨(c4_bool_parsing envN fsE st0 [65]).2.2.2 (by decide),
   ((c4_bool_parsing envN fsE st0 [65]).2.2.1 "ON").mpr (by simp)⟩

/-- C5: an override-file line whose value part is empty stores the parsed
key as explicit absence in the cache, so when such a line is the first
match for the requested name, `get_os` returns absence even though the
line matched. -/
theorem c5_empty_value_absence :
    (∀ (c : Cache) (k v : ByteStr), v = [] →
      cacheGet (insert_key_value c k v) k = some none) ∧
    (∀ (env : Env) (fs : FileSystem) (st : EnvState) (name : ByteStr),
      cacheGet st.cache name = none → env name = none →
      findEntry (registryEntries fs st.paths) name = some [] →
      (get_os env fs st name).1 = none) := by
  constructor
  · intro c k v hv
    subst hv
    simp [cacheGet_insert_key_value, emptyToNone]
  · intro env fs st name h1 h2 h3
    rw [get_os_resolve]
    simp [specResolve, h1, h2, h3, emptyToNone]

theorem c5_empty_value_absence_witness :
    cacheGet (insert_key_value [] [70, 79, 79] []) [70, 79, 79] = some none ∧
    (get_os envN fs5 { paths := [[80]], cache := [] } [70, 79, 79]).1 = none :=
  ⟨c5_empty_value_absence.1 [] [70, 79, 79] [] rfl,
   c5_empty_value_absence.2 envN fs5 { paths := [[80]], cache := [] } [70, 79, 79]
     (by decide) (by decide) (by decide)⟩

/-- C6: when a lookup has cached explicit absence for a name, adding a
new (not previously registered) override file that defines the name
clears the whole cache, so the next lookup returns the new file's value
instead of the stale cached absence. -/
theorem c6_invalidation (isFile : FsPath → Bool) (env : Env) (fs : FileSystem)
    (st : EnvState) (name : ByteStr) (p : FsPath) (lines : List LineRead)
    (v : ByteStr)
    (h1 : cacheGet st.cache name = some none)
    (h2 : isFile p = true)
    (h3 : p ∉ st.paths)
    (h4 : env name = none)
    (h5 : fs p = some lines)
    (h6 : findEntry (registryEntries fs st.paths) name = none)
    (h7 : findEntry (fileEntries lines) name = some v)
    (h8 : v ≠ []) :
    (get_os env fs st name).1 = none ∧
    add_override_path isFile p st = some { paths := st.paths ++ [p], cache := [] } ∧
    (get_os env fs { paths := st.paths ++ [p], cache := [] } name).1 = some v := by
  refine ⟨?_, ?_, ?_⟩
  · rw [get_os_cache_hit env fs st name none h1]
  · rw [add_override_path]
    simp [h2, h3]
  · rw [get_os_resolve]
    have hreg : findEntry (registryEntries fs (st.paths ++ [p])) name = some v := by
      rw [registryEntries_append, findEntry_append_of_none _ _ _ h6]
      have : registryEntries fs [p] = fileEntries lines ++ [] := by
        simp [registryEntries, h5]
      rw [this]
      exact findEntry_append_of_some _ _ _ _ h7
    have hne : (cacheGet ([] : Cache) name) = none := rfl
    simp only [specResolve, hne, h4, hreg]
    cases v with
    | nil => exact absurd rfl h8
    | cons b t => simp [emptyToNone]

theorem c6_invalidation_witness :
    (get_os envN fs0 st6 [65]).1 = none ∧
    add_override_path isFile0 [80] st6 = some { paths := [[80]], cache := [] } ∧
    (get_os envN fs0 { paths := [[80]], cache := [] } [65]).1 = some [70] := by
  have h := c6_invalidation isFile0 envN fs0 st6 [65] [80] [.ok [65, 61, 70]] [70]
    (by decide) (by decide) (by decide) (by decide) (by decide) (by decide)
    (by decide) (by decide)
  simpa [st6] using h

/-- C7: adding the same path twice is idempotent: the second call finds
the path already registered and returns with no effect, leaving the
registry and the cache exactly as after the first call, hence all
subsequently observable lookup values identical. -/
theorem c7_add_idempotent (isFile : FsPath → Bool) (p : FsPath)
    (st st' : EnvState) (h : add_override_path isFile p st = some st') :
    add_override_path isFile p st' = some st' := by
  rw [add_override_path] at h
  by_cases hf : isFile p
  · by_cases hm : p ∈ st.paths
    · simp [hf, hm] at h
      subst h
      rw [add_override_path]
      simp [hf, hm]
    · simp [hf, hm] at h
      rw [add_override_path]
      have : p ∈ st'.paths := by
        rw [← h]
        simp
      simp [hf, this]
  · simp [hf] at h

theorem c7_add_idempotent_witness :
    add_override_path isFile0 [80] { paths := [[80]], cache := [] } =
      some { paths := [[80]], cache := [] } :=
  c7_add_idempotent isFile0 [80] st0 { paths := [[80]], cache := [] } (by decide)

end SystemEnv

namespace SystemEnv

/-- C8: no lookup propagates an error: an unopenable override file is
skipped, an I/O error mid-file abandons only the rest of that file, a
line with no separator is skipped, a line with undecodable key or value
bytes is skipped on the platform that decodes (windows build), and when
every source fails the lookups return plain absence (`none`) through
`get_os`, `get` and `get_bool`. -/
theorem c8_error_degradation :
    (∀ (fs : FileSystem) (name : ByteStr) (cache : Cache) (p : FsPath)
        (rest : List FsPath), fs p = none →
        processFiles fs name cache (p :: rest) = processFiles fs name cache rest) ∧
    (∀ (name : ByteStr) (cache : Cache) (rest : List LineRead),
        processLines name cache (.ioError :: rest) = (none, cache)) ∧
    (∀ (name : ByteStr) (cache : Cache) (data : ByteStr) (rest : List LineRead),
        parseLine data = none →
        processLines name cache (.ok data :: rest) = processLines name cache rest) ∧
    (∀ (name : ByteStr) (cache : Cache) (data : ByteStr) (rest : List LineRead)
        (pos : Nat), sepPos data = some pos → windows_path cache data pos = none →
        processLinesWindows name cache (.ok data :: rest) =
          processLinesWindows name cache rest) ∧
    (∀ (env : Env) (fs : FileSystem) (st : EnvState) (name : ByteStr),
        cacheGet st.cache name = none → env name = none →
        findEntry (registryEntries fs st.paths) name = none →
        (get_os env fs st name).1 = none ∧ (get env fs st name).1 = none ∧
        (get_bool env fs st name).1 = none) := by
  refine ⟨?_, ?_, ?_, ?_, ?_⟩
  · intro fs name cache p rest h
    rw [processFiles, h]
  · intro name cache rest
    rfl
  · intro name cache data rest h
    rw [processLines, h]
  · intro name cache data rest pos h1 h2
    rw [processLinesWindows, h1]
    simp only [h2]
  · intro env fs st name h1 h2 h3
    have hr : (get_os env fs st name).1 = none := by
      rw [get_os_resolve]
      simp [specResolve, h1, h2, h3]
    refine ⟨hr, ?_, ?_⟩
    · show ((get_os env fs st name).1).bind into_string = none
      rw [hr]; rfl
    · show (((get_os env fs st name).1).bind into_string).bind parseBool = none
      rw [hr]; rfl

theorem c8_error_degradation_witness :
    processFiles fs0 [65] [] [[81]] = processFiles fs0 [65] [] [] ∧
    processLines [65] [] [.ioError] = (none, []) ∧
    processLines [65] [] [.ok [70]] = processLines [65] [] [] ∧
    processLinesWindows [65] [] [.ok [255, 61]] = processLinesWindows [65] [] [] ∧
    (get_os envN fsE st0 [65]).1 = none ∧ (get envN fsE st0 [65]).1 = none ∧
    (get_bool envN fsE st0 [65]).1 = none :=
  ⟨c8_error_degradation.1 fs0 [65] [] [81] [] (by decide),
   c8_error_degradation.2.1 [65] [] [],
   c8_error_degradation.2.2.1 [65] [] [70] [] (by decide),
   c8_error_degradation.2.2.2.1 [65] [] [255, 61] [] 1 (by decide) (by decide),
   c8_error_degradation.2.2.2.2 envN fsE st0 [65] (by decide) (by decide) (by decide)⟩

/-- C9: the empty-value-means-unset policy applies only to override-file
lines: an environment hit is cached with `Some` directly, so a variable
whose live-environment value is the empty string resolves to the empty
string (a present value), not to absence. -/
theorem c9_env_empty_string (env : Env) (fs : FileSystem) (st : EnvState)
    (name : ByteStr) (h1 : cacheGet st.cache name = none)
    (h2 : env name = some []) :
    (get_os env fs st name).1 = some [] := by
  rw [get_os_resolve]
  simp [specResolve, h1, h2]

theorem c9_env_empty_string_witness :
    (get_os envE fsE st0 [65]).1 = some [] :=
  c9_env_empty_string envE fsE st0 [65] (by decide) (by decide)

/-- C10: after `get_os` returns, the cache holds an entry for the
requested name equal to the returned result, so a second lookup of the
same name in the resulting state takes the cache-hit path: it returns the
same result, leaves the state unchanged, and does so for an arbitrary
environment and filesystem, showing neither is consulted. -/
theorem c10_second_lookup_cached (env : Env) (fs : FileSystem) (st : EnvState)
    (name : ByteStr) :
    cacheGet ((get_os env fs st name).2).cache name = some ((get_os env fs st name).1) ∧
    ∀ (env2 : Env) (fs2 : FileSystem),
      get_os env2 fs2 ((get_os env fs st name).2) name =
        ((get_os env fs st name).1, (get_os env fs st name).2) := by
  refine ⟨get_os_cache_self env fs st name, ?_⟩
  intro env2 fs2
  exact get_os_cache_hit env2 fs2 _ name _ (get_os_cache_self env fs st name)

end SystemEnv
